import Mathlib

/-!
Verification model of the managed-heap repository (Rust).

The embedding mirrors the source on a 64-bit host: the machine word is
8 bytes, half-words are 32 bits.  Machine integers are modelled as `Nat`
with an explicit `% HW` wherever the source performs 32-bit (`HalfWord`)
arithmetic.  Memory is a function from word addresses (relative to the
heap base, so the base is address 0) to word values.  A `Block` handle is
the word address of its header.

Source files embedded:
  * `src/types.rs`          (word constants)
  * `src/block/header.rs`   (`BlockHeader`)
  * `src/block/mod.rs`      (`Block`)
  * `src/block/set.rs`      (`BlockSet`)
  * `src/heap.rs`           (`Heap`)
  * `src/managed.rs`        (`ManagedHeap::gc`)
-/

namespace ManagedHeap

/-- `WORD_SIZE` from `src/types.rs`: bytes per machine word (64-bit host). -/
def WORD_SIZE : Nat := 8

/-- Modulus of 32-bit `HalfWord` arithmetic, `2 ^ 32` written as a literal. -/
def HW : Nat := 4294967296

/-- `HALF_WORD_MAX` from `src/types.rs`: `u32::MAX` on a 64-bit host. -/
def HALF_WORD_MAX : Nat := 4294967295

/-- `BlockHeader::new` (`src/block/header.rs`): pack `pred_size` into the high
half-word and `size` into the low half-word of one machine word. -/
def headerNew (predSize ownSize : Nat) : Nat :=
  predSize % HW * HW + ownSize % HW

/-- `BlockHeader::block_size`: the low half-word (`self.0 as HalfWord`). -/
def blockSize (h : Nat) : Nat := h % HW

/-- `BlockHeader::pred_block_size`: the high half-word (`self.0 >> 32`). -/
def predBlockSize (h : Nat) : Nat := h / HW % HW

/-- Heap memory: word address (relative to the heap base) to word value. -/
def Mem : Type := Nat → Nat

/-- Write one word of memory. -/
def updMem (m : Mem) (a v : Nat) : Mem :=
  fun x => if x = a then v else m x

/-- The all-zero memory used as the fresh backing region. -/
def zeroMem : Mem := fun _ => 0

/-- `Block::size` (`src/block/mod.rs`): read `own_size` from the header at `a`. -/
def blkSize (m : Mem) (a : Nat) : Nat := blockSize (m a)

/-- `Block::pred_size`: read `pred_size` from the header at `a`. -/
def blkPredSize (m : Mem) (a : Nat) : Nat := predBlockSize (m a)

/-- `BlockHeader::set_size`: replace the low half-word, keep the high one. -/
def memSetSize (m : Mem) (a v : Nat) : Mem :=
  updMem m a (m a / HW * HW + v % HW)

/-- `BlockHeader::inc_size`: 32-bit wrapping add to the low half-word. -/
def memIncSize (m : Mem) (a v : Nat) : Mem :=
  updMem m a (m a / HW * HW + (blockSize (m a) + v) % HW)

/-- `BlockHeader::set_pred_size`: replace the high half-word, keep the low one. -/
def memSetPredSize (m : Mem) (a v : Nat) : Mem :=
  updMem m a (v % HW * HW + m a % HW)

/-- `Block::write_at` (`src/block/mod.rs`): the source asserts
`offset * WORD_SIZE < self.size()` and then writes the word at
`header + 1 + offset`.  `none` models the assertion failure (panic). -/
def writeAt (m : Mem) (a : Nat) (offset value : Nat) : Option Mem :=
  if offset * WORD_SIZE < blkSize m a then
    some (updMem m (a + 1 + offset) value)
  else
    none

/-- `Block::next_block`: header address plus `own_size`; `none` when the
result is at or past `heap_end`. -/
def nextBlock (m : Mem) (heapEnd a : Nat) : Option Nat :=
  let next := a + blkSize m a
  if heapEnd ≤ next then none else some next

/-- `Block::pred_block`: `none` when `pred_size = 0` or the computed address
would fall below the heap base (address 0). -/
def predBlock (m : Mem) (a : Nat) : Option Nat :=
  let p := blkPredSize m a
  if p = 0 then none
  else if a < p then none
  else some (a - p)

/-- `Block::split_after` (`src/block/mod.rs`): write a fresh header for the
high part at `a + fstSize` (own = old size − fstSize, pred = fstSize), then
rewrite the header at `a` (own = fstSize, pred kept).  Returns the new
memory and the two header addresses, in the source's write order. -/
def splitAfter (m : Mem) (a fstSize : Nat) : Mem × Nat × Nat :=
  let currentSize := blkSize m a
  let ps := blkPredSize m a
  let secondSize := (currentSize - fstSize) % HW
  let m1 := updMem m (a + fstSize) (headerNew fstSize secondSize)
  let m2 := updMem m1 a (headerNew ps fstSize)
  (m2, a, a + fstSize)

/-- Boolean list membership, mirroring `BlockSet::contains`
(a binary search for the exact header address). -/
def lmem (a : Nat) : List Nat → Bool
  | [] => false
  | x :: xs => if x = a then true else lmem a xs

/-- `BlockSet::add_block` (`src/block/set.rs`): the vector is kept sorted by
`Block`'s `Ord`, which compares the raw header pointers, i.e. addresses.
Insertion at the `binary_search` index is an ordered insert by address. -/
def bsAdd (l : List Nat) (b : Nat) : List Nat :=
  match l with
  | [] => [b]
  | x :: xs => if b ≤ x then b :: x :: xs else x :: bsAdd xs b

/-- `BlockSet::get_block`: linear scan (in address order) for the first block
whose size is at least `minSize`; remove and return it. -/
def bsGetBlock (m : Mem) (l : List Nat) (minSize : Nat) : Option (Nat × List Nat) :=
  match l.find? (fun b => minSize ≤ blkSize m b) with
  | none => none
  | some b => some (b, l.erase b)

/-- `Heap` (`src/heap.rs`): region size in words, the backing memory, and the
two block sets as address lists kept sorted ascending. -/
structure Heap where
  size : Nat
  mem : Mem
  freeBlocks : List Nat
  usedBlocks : List Nat

/-- `Heap::new` (`src/heap.rs`): panic (`none`) when the byte size exceeds
`HALF_WORD_MAX`; otherwise divide by the word size (truncating) and create
one region-spanning free block at address 0.  The host allocator is
modelled as always succeeding with a zeroed region. -/
def heapNew (sizeBytes : Nat) : Option Heap :=
  if HALF_WORD_MAX < sizeBytes then none
  else
    let words := sizeBytes / WORD_SIZE
    some { size := words
           mem := updMem zeroMem 0 (headerNew 0 words)
           freeBlocks := [0]
           usedBlocks := [] }

/-- Convenience: the heap produced by `heapNew`, with a junk default that is
never reached for the byte sizes used below. -/
def heapD (sizeBytes : Nat) : Heap :=
  (heapNew sizeBytes).getD { size := 0, mem := zeroMem, freeBlocks := [], usedBlocks := [] }

/-- `Heap::alloc_block` (`src/heap.rs`): `total_size = size + 1` in 32-bit
arithmetic; take the first fit; split when the chosen block's size exceeds
`total_size + 2` (also 32-bit), reinserting the high half into the free set. -/
def Heap.allocBlock (h : Heap) (size : Nat) : Option (Nat × Heap) :=
  let totalSize := (size + 1) % HW
  match bsGetBlock h.mem h.freeBlocks totalSize with
  | none => none
  | some (b, rest) =>
    if (totalSize + 2) % HW < blkSize h.mem b then
      let r := splitAfter h.mem b totalSize
      some (r.2.1, { h with mem := r.1, freeBlocks := bsAdd rest r.2.2 })
    else
      some (b, { h with freeBlocks := rest })

/-- `Heap::alloc`: allocate a block, record it in `used_blocks`, and return
the payload address (header address + 1). -/
def Heap.alloc (h : Heap) (size : Nat) : Option (Nat × Heap) :=
  match h.allocBlock size with
  | none => none
  | some (b, h1) => some (b + 1, { h1 with usedBlocks := bsAdd h1.usedBlocks b })

/-- `Heap::free` (`src/heap.rs`), step for step: remove from `used_blocks`;
forward-coalesce with a free successor; backward-coalesce into a free
predecessor (growing it in place) or else rewrite this block's size and
insert it into `free_blocks`; finally patch the successor's `pred_size`
in the two branches the source handles. -/
def Heap.free (h : Heap) (addr : Nat) : Heap :=
  let b := addr - 1
  let used1 := h.usedBlocks.erase b
  let size0 := blkSize h.mem b
  let nextB := nextBlock h.mem h.size b
  let fstep : Nat × List Nat × Bool :=
    match nextB with
    | some nxt =>
        if lmem nxt h.freeBlocks then
          ((size0 + blkSize h.mem nxt) % HW, h.freeBlocks.erase nxt, true)
        else (size0, h.freeBlocks, false)
    | none => (size0, h.freeBlocks, false)
  let size1 := fstep.1
  let free1 := fstep.2.1
  let freedNext := fstep.2.2
  let bstep : Nat × Mem × List Nat :=
    match predBlock h.mem b with
    | some p =>
        if lmem p free1 then
          let m1 := memIncSize h.mem p size1
          (blkSize m1 p, m1, free1)
        else (size1, memSetSize h.mem b size1, bsAdd free1 b)
    | none => (size1, memSetSize h.mem b size1, bsAdd free1 b)
  let size2 := bstep.1
  let m2 := bstep.2.1
  let free2 := bstep.2.2
  let m3 :=
    if freedNext then
      match nextB with
      | some nxt =>
          match nextBlock m2 h.size nxt with
          | some aft => memSetPredSize m2 aft size2
          | none => m2
      | none => m2
    else
      match nextB with
      | some nxt => if lmem nxt free2 then m2 else memSetPredSize m2 nxt size2
      | none => m2
  { h with mem := m3, freeBlocks := free2, usedBlocks := used1 }

/-- `ManagedHeap` (`src/managed.rs`) together with the client mark state.
Per the gc contract the client stores the mark flag per object; the claims
assume coherent `mark`/`unmark`/`is_marked` callbacks that do not touch the
heap, so the flags live beside the heap, keyed by payload address. -/
structure MHeap where
  heap : Heap
  flags : Nat → Bool

/-- The mark phase of `ManagedHeap::gc`: every object yielded (directly or
recursively) by the root providers gets `mark()` called, i.e. its flag set.
`R` is the list of payload addresses the client marks. -/
def markPhase (R : List Nat) (f : Nat → Bool) : Nat → Bool :=
  fun a => if lmem a R then true else f a

/-- The sweep work list of `ManagedHeap::gc`: payload addresses of the used
blocks whose object reports `is_marked() == false`, collected from
`used_blocks` before any `free` runs (the source materialises this `Vec`
first). -/
def sweepList (R : List Nat) (s : MHeap) : List Nat :=
  (s.heap.usedBlocks.filter (fun b => !(markPhase R s.flags (b + 1)))).map (fun b => b + 1)

/-- `ManagedHeap::gc`: mark, sweep (free every collected address), then
unmark every surviving used object. -/
def MHeap.gc (s : MHeap) (R : List Nat) : MHeap :=
  let heap1 := (sweepList R s).foldl Heap.free s.heap
  { heap := heap1
    flags := fun a =>
      if lmem a (heap1.usedBlocks.map (fun b => b + 1)) then false
      else markPhase R s.flags a }

/-- A 4096-byte (512-word) heap, the size the source's own tests use. -/
def heap512 : Heap := heapD 4096

/-- Run `alloc` and keep only the new state (the allocations in the traces
below all succeed, as the accompanying theorems check). -/
def Heap.allocA (h : Heap) (n : Nat) : Nat × Heap := (h.alloc n).getD (0, h)

/-- Trace state: `alloc(9)` on the fresh 512-word heap. -/
def t3a : Heap := (heap512.allocA 9).2

/-- Trace state: then `alloc(49)`. -/
def t3b : Heap := (t3a.allocA 49).2

/-- Trace state: then `alloc(99)`. -/
def t3c : Heap := (t3b.allocA 99).2

/-- Trace state: then free the second allocation (payload address 11). -/
def t3d : Heap := t3c.free 11

/-- Trace state: then `alloc(5)`, which splits the size-50 free block at
header 10 whose used successor sits at header 60. -/
def t3e : Heap := (t3d.allocA 5).2

/-- Trace state: then free the third allocation (payload address 61). -/
def t3f : Heap := t3e.free 61

/-- A two-block free set for the `BlockSet` claims: header 0 with own size 10,
header 100 with own size 5. -/
def mC1 : Mem := updMem (updMem zeroMem 0 (headerNew 0 10)) 100 (headerNew 0 5)

/-- Memory holding one block of own size 11 (10 payload words) at header 0. -/
def mS11 : Mem := updMem zeroMem 0 (headerNew 0 11)

/-- Memory holding one header-only block of own size 1 at header 0. -/
def mS1 : Mem := updMem zeroMem 0 (headerNew 0 1)

/-- Trace state for the splitting-policy claim: `alloc(2)` on the fresh heap. -/
def c6t1 : Heap := (heap512.allocA 2).2

/-- Trace state: then `alloc(9)`. -/
def c6t2 : Heap := (c6t1.allocA 9).2

/-- Trace state: then free the first allocation, leaving a free block of
own size 3 at header 0 in front of the free remainder. -/
def c6t3 : Heap := c6t2.free 1

/-- Trace state: then `alloc(0)` on that heap. -/
def c6t4 : Nat × Heap := c6t3.allocA 0

/-- The heap after `alloc(10)` on the fresh 512-word heap. -/
def c6after : Heap := ((heap512.alloc 10).getD (0, heap512)).2

/-- The heap after `alloc(HALF_WORD_MAX)` on the fresh 512-word heap. -/
def c10after : Heap := (((heapD 4096).alloc HALF_WORD_MAX).getD (0, heapD 4096)).2

/-- Memory of a 512-word heap with used blocks at headers 0 (size 11) and
11 (size 30) and a free block at header 41 (size 471). -/
def mGC : Mem :=
  updMem (updMem (updMem zeroMem 0 (headerNew 0 11)) 11 (headerNew 11 30)) 41
    (headerNew 30 471)

/-- A managed-heap state over `mGC` with all client mark flags clear. -/
def sGC : MHeap :=
  { heap := { size := 512, mem := mGC, freeBlocks := [41], usedBlocks := [0, 11] }
    flags := fun _ => false }

end ManagedHeap

namespace ManagedHeap

/-! ### Helper lemmas -/

theorem blockSize_headerNew (p o : Nat) : blockSize (headerNew p o) = o % HW := by
  unfold blockSize headerNew HW
  omega

theorem predBlockSize_headerNew (p o : Nat) : predBlockSize (headerNew p o) = p % HW := by
  unfold predBlockSize headerNew HW
  omega

theorem blkSize_lt (m : Mem) (a : Nat) : blkSize m a < HW := by
  unfold blkSize blockSize HW
  omega

theorem updMem_same (m : Mem) (a v : Nat) : updMem m a v a = v := by
  simp [updMem]

theorem updMem_other (m : Mem) (a v x : Nat) (h : x ≠ a) : updMem m a v x = m x := by
  simp [updMem, h]

theorem lmem_eq_decide (a : Nat) (l : List Nat) : lmem a l = decide (a ∈ l) := by
  induction l with
  | nil => simp [lmem]
  | cons x xs ih =>
    by_cases hx : x = a
    · subst hx; simp [lmem]
    · simp [lmem, hx, ih, Ne.symm hx]

theorem mem_bsAdd (l : List Nat) (b y : Nat) : y ∈ bsAdd l b ↔ y ∈ l ∨ y = b := by
  induction l with
  | nil => simp [bsAdd]
  | cons x xs ih =>
    by_cases hb : b ≤ x <;> simp [bsAdd, hb, ih] <;> tauto

theorem bsAdd_sorted (l : List Nat) (b : Nat) (h : l.Sorted (· ≤ ·)) :
    (bsAdd l b).Sorted (· ≤ ·) := by
  induction l with
  | nil => simp [bsAdd]
  | cons x xs ih =>
    rw [List.sorted_cons] at h
    by_cases hb : b ≤ x
    · rw [bsAdd, if_pos hb, List.sorted_cons]
      refine ⟨?_, List.sorted_cons.mpr h⟩
      intro y hy
      rcases List.mem_cons.mp hy with hy | hy
      · omega
      · exact le_trans hb (h.1 y hy)
    · rw [bsAdd, if_neg hb, List.sorted_cons]
      refine ⟨?_, ih h.2⟩
      intro y hy
      rcases (mem_bsAdd xs b y).mp hy with hy | hy
      · exact h.1 y hy
      · omega

theorem bsGetBlock_eq_some (m : Mem) (l : List Nat) (k b : Nat) (rest : List Nat)
    (h : bsGetBlock m l k = some (b, rest)) :
    l.find? (fun x => k ≤ blkSize m x) = some b ∧ rest = l.erase b := by
  unfold bsGetBlock at h
  cases hf : l.find? (fun x => k ≤ blkSize m x) with
  | none => rw [hf] at h; exact absurd h (by simp)
  | some c =>
    rw [hf] at h
    simp only [Option.some.injEq, Prod.mk.injEq] at h
    obtain ⟨hcb, hrest⟩ := h
    subst hcb
    exact ⟨rfl, hrest.symm⟩

theorem free_usedBlocks (h : Heap) (a : Nat) :
    (h.free a).usedBlocks = h.usedBlocks.erase (a - 1) := rfl

theorem foldl_free_used (as : List Nat) (h : Heap) :
    (as.foldl Heap.free h).usedBlocks
      = as.foldl (fun l a => l.erase (a - 1)) h.usedBlocks := by
  induction as generalizing h with
  | nil => rfl
  | cons a as ih => rw [List.foldl_cons, List.foldl_cons, ih, free_usedBlocks]

theorem foldl_erase_eq_filter (bs : List Nat) (u : List Nat) (h : u.Nodup) :
    bs.foldl (fun l a => l.erase a) u = u.filter (fun b => !(lmem b bs)) := by
  induction bs generalizing u with
  | nil => simp [lmem]
  | cons a bs ih =>
    rw [List.foldl_cons, ih _ (h.erase a), h.erase_eq_filter a, List.filter_filter]
    apply List.filter_congr
    intro x hx
    by_cases hxa : x = a
    · subst hxa; simp [lmem]
    · simp [lmem, Ne.symm hxa, hxa]

theorem gc_used (s : MHeap) (R : List Nat) (hnd : s.heap.usedBlocks.Nodup) :
    (s.gc R).heap.usedBlocks
      = s.heap.usedBlocks.filter (fun b => markPhase R s.flags (b + 1)) := by
  show ((sweepList R s).foldl Heap.free s.heap).usedBlocks = _
  rw [foldl_free_used, sweepList, List.foldl_map]
  simp only [Nat.add_sub_cancel]
  rw [foldl_erase_eq_filter _ _ hnd]
  apply List.filter_congr
  intro b hb
  cases hmp : markPhase R s.flags (b + 1) with
  | true =>
    have hnb : b ∉ s.heap.usedBlocks.filter (fun b => !(markPhase R s.flags (b + 1))) := by
      simp [List.mem_filter, hmp]
    simp [lmem_eq_decide, hnb]
  | false =>
    have hbm : b ∈ s.heap.usedBlocks.filter (fun b => !(markPhase R s.flags (b + 1))) := by
      simp [List.mem_filter, hb, hmp]
    simp [lmem_eq_decide, hbm]

theorem splitAfter_addr (m : Mem) (a f : Nat) : (splitAfter m a f).2.1 = a := rfl

theorem splitAfter_high (m : Mem) (a f : Nat) : (splitAfter m a f).2.2 = a + f := rfl

theorem splitAfter_mem (m : Mem) (a f : Nat) :
    (splitAfter m a f).1
      = updMem (updMem m (a + f) (headerNew f ((blkSize m a - f) % HW))) a
          (headerNew (blkPredSize m a) f) := rfl

end ManagedHeap

namespace ManagedHeap

/-! ### Claim theorems -/

/-- C1, counterexample.  On the block-set state with header 0 (own size 10)
and header 100 (own size 5), `get_block(3)` returns the block at header 0 of
size 10 even though the block at header 100 qualifies with the strictly
smaller size 5: `get_block` does not return the smallest sufficient block,
because `Block`'s ordering (and hence the set ordering and this scan) is by
header address, not by size. -/
theorem c1_counterexample :
    bsGetBlock mC1 [0, 100] 3 = some (0, [100])
    ∧ blkSize mC1 0 = 10 ∧ blkSize mC1 100 = 5
    ∧ (100 : Nat) ∈ [0, 100] ∧ 3 ≤ blkSize mC1 100
    ∧ blkSize mC1 100 < blkSize mC1 0 := by
  decide

/-- C1, amended.  `BlockSet::get_block(min_size)` returns and removes the
first block in ascending header-address order whose size is at least
`min_size` (so ties and everything else are decided by address, not size),
and `add_block` keeps the set sorted by ascending header address. -/
theorem c1_amended_first_fit :
    (∀ (m : Mem) (l : List Nat) (minSize b : Nat) (rest : List Nat),
        l.Sorted (· ≤ ·) → bsGetBlock m l minSize = some (b, rest) →
          b ∈ l ∧ minSize ≤ blkSize m b
            ∧ (∀ x ∈ l, minSize ≤ blkSize m x → b ≤ x) ∧ rest = l.erase b)
    ∧ (∀ (l : List Nat) (b : Nat), l.Sorted (· ≤ ·) → (bsAdd l b).Sorted (· ≤ ·)) := by
  constructor
  · intro m l minSize b rest hs hget
    obtain ⟨h1, hrest⟩ := bsGetBlock_eq_some m l minSize b rest hget
    refine ⟨List.mem_of_find?_eq_some h1, by simpa using List.find?_some h1, ?_, hrest⟩
    clear hget hrest
    induction l with
    | nil => simp at h1
    | cons x xs ih =>
      rw [List.sorted_cons] at hs
      rw [List.find?_cons] at h1
      cases hx : decide (minSize ≤ blkSize m x) with
      | true =>
        rw [hx] at h1
        simp only [Option.some.injEq] at h1
        subst h1
        intro y hy _
        rcases List.mem_cons.mp hy with rfl | hy
        · exact le_refl y
        · exact hs.1 y hy
      | false =>
        rw [hx] at h1
        intro y hy hsy
        rcases List.mem_cons.mp hy with rfl | hy
        · exact absurd hsy (by simpa using hx)
        · exact ih hs.2 h1 y hy hsy
  · exact fun l b h => bsAdd_sorted l b h

/-- C1, witness for the amended theorem at the concrete state `mC1`. -/
theorem c1_amended_first_fit_witness :
    (0 : Nat) ∈ [0, 100] ∧ 3 ≤ blkSize mC1 0
    ∧ (∀ x ∈ [0, 100], 3 ≤ blkSize mC1 x → 0 ≤ x) ∧ [100] = [0, 100].erase 0 :=
  c1_amended_first_fit.1 mC1 [0, 100] 3 0 [100] (by decide) (by decide)

/-- C2, divergence of the code.  Trace on a 512-word heap: `alloc(9)`,
`alloc(49)`, `alloc(99)`, `free(11)`, then `alloc(5)`.  The last call
splits the free block at header 10 (own size 50) whose used successor sits
at header 60; after the split the new high block at header 16 has own size
44 and is the address predecessor of header 60, yet the successor's
`pred_size` still reads 50: `alloc` does not update the following block's
`pred_size`, so invariant P2 is not preserved by `alloc`. -/
theorem c2_stale_pred_size_after_split :
    (heap512.alloc 9).map Prod.fst = some 1
    ∧ (t3a.alloc 49).map Prod.fst = some 11
    ∧ (t3b.alloc 99).map Prod.fst = some 61
    ∧ lmem 10 t3d.freeBlocks = true
    ∧ blkSize t3d.mem 10 = 50
    ∧ lmem 60 t3d.usedBlocks = true
    ∧ nextBlock t3d.mem t3d.size 10 = some 60
    ∧ (t3d.alloc 5).map Prod.fst = some 11
    ∧ lmem 16 t3e.freeBlocks = true
    ∧ blkSize t3e.mem 16 = 44
    ∧ nextBlock t3e.mem t3e.size 16 = some 60
    ∧ blkPredSize t3e.mem 60 = 50
    ∧ ¬ blkPredSize t3e.mem 60 = blkSize t3e.mem 16 := by
  decide

/-- C3, divergence of the code.  Continuing the same trace (every freed
address was returned by a preceding `alloc` and not freed before), the next
call `free(61)` consults the stale `pred_size` 50 of header 60, misses the
actual free predecessor at header 16, and leaves the address-adjacent
blocks at headers 16 and 60 both in `free_blocks`: the no-adjacent-frees
invariant P4 fails immediately after this `free`. -/
theorem c3_adjacent_free_blocks_after_free :
    (heap512.alloc 9).map Prod.fst = some 1
    ∧ (t3a.alloc 49).map Prod.fst = some 11
    ∧ (t3b.alloc 99).map Prod.fst = some 61
    ∧ (t3d.alloc 5).map Prod.fst = some 11
    ∧ lmem 16 t3f.freeBlocks = true
    ∧ lmem 60 t3f.freeBlocks = true
    ∧ nextBlock t3f.mem t3f.size 16 = some 60 := by
  decide

/-- C4, divergence of the code.  `write_at` asserts
`offset * WORD_SIZE < own_size`, scaling the word offset to bytes while the
block size is counted in words.  For a block of own size 11 (10 payload
words), offset 2 satisfies the claimed precondition `2 < 11 - 1` but the
code's assertion fails (hard failure); for a header-only block of own
size 1 the code accepts offset 0 and writes outside the payload although
`0 < 1 - 1` is false. -/
theorem c4_write_at_bounds_check :
    blkSize mS11 0 = 11 ∧ (writeAt mS11 0 2 99).isSome = false ∧ 2 < 11 - 1
    ∧ blkSize mS1 0 = 1 ∧ (writeAt mS1 0 0 99).isSome = true ∧ ¬ (0 < 1 - 1) := by
  decide

/-- C5, counterexample.  `new(4294967296)` requests 2^32 bytes, a whole
multiple of the word size whose word count 2^29 is within `HALF_WORD_MAX`,
yet construction hits the size-limit hard failure: the source compares the
byte count, not the word count, against `HALF_WORD_MAX`. -/
theorem c5_counterexample :
    (heapNew 4294967296).isSome = false
    ∧ 4294967296 % WORD_SIZE = 0
    ∧ 4294967296 / WORD_SIZE ≤ HALF_WORD_MAX := by
  decide

/-- C5, amended.  The size-limit hard failure of `Heap::new(size_bytes)`
occurs exactly when the byte count `size_bytes` exceeds `HALF_WORD_MAX`;
every byte size up to `HALF_WORD_MAX` constructs a heap. -/
theorem c5_amended_byte_limit (s : Nat) : (heapNew s).isSome ↔ s ≤ HALF_WORD_MAX := by
  by_cases hs : HALF_WORD_MAX < s
  · simp [heapNew, hs]
  · simp [heapNew, hs]
    omega

end ManagedHeap

namespace ManagedHeap

/-- C6, counterexample.  Trace on a 512-word heap: `alloc(2)`, `alloc(9)`,
then free the first allocation, leaving a free block of own size 3 at
header 0.  `alloc(0)` then chooses that block, and since its size 3 is not
greater than `total + 2 = 3` it is returned unsplit with own size 3, not
the claimed 1 word. -/
theorem c6_counterexample :
    (heap512.alloc 2).map Prod.fst = some 1
    ∧ (c6t1.alloc 9).map Prod.fst = some 4
    ∧ lmem 0 c6t3.freeBlocks = true
    ∧ blkSize c6t3.mem 0 = 3
    ∧ (c6t3.alloc 0).map Prod.fst = some 1
    ∧ blkSize c6t4.2.mem 0 = 3
    ∧ ¬ blkSize c6t4.2.mem 0 = 1 := by
  decide

/-- C6, amended.  For `alloc(n)` with `n + 3 ≤ HALF_WORD_MAX` (so the 32-bit
additions `n + 1` and `total + 2` do not wrap; the wrapping case is claim
C10) that returns an address: the chosen block `c` is the first fit for
`total = n + 1`; the returned address is `c + 1`; if `c`'s own size exceeds
`total + 2` the block is split, the low part keeping own size exactly
`total` and the high part of own size `own_size − total` being reinserted
into `free_blocks`; otherwise the whole block is returned unsplit with the
memory untouched.  In both cases the returned block's own size is at least
`n + 1` (P5).  In particular `alloc(0)` returns a 1-word block exactly when
the chosen block splits, i.e. when its own size exceeds 3. -/
theorem c6_amended_split_policy (h : Heap) (n a : Nat) (h2 : Heap)
    (hn : n + 3 ≤ HALF_WORD_MAX) (ha : h.alloc n = some (a, h2)) :
    ∃ c rest, bsGetBlock h.mem h.freeBlocks (n + 1) = some (c, rest)
      ∧ a = c + 1 ∧ n + 1 ≤ blkSize h2.mem c
      ∧ ((n + 3 < blkSize h.mem c →
            blkSize h2.mem c = n + 1
            ∧ (c + (n + 1)) ∈ h2.freeBlocks
            ∧ blkSize h2.mem (c + (n + 1)) = blkSize h.mem c - (n + 1))
        ∧ (¬ (n + 3 < blkSize h.mem c) →
            h2.mem = h.mem ∧ h2.freeBlocks = rest)) := by
  have hlt1 : (n + 1) % HW = n + 1 := by unfold HALF_WORD_MAX at hn; unfold HW; omega
  have hlt3 : (n + 1 + 2) % HW = n + 3 := by unfold HALF_WORD_MAX at hn; unfold HW; omega
  rw [Heap.alloc, Heap.allocBlock] at ha
  simp only [hlt1, hlt3] at ha
  cases hget : bsGetBlock h.mem h.freeBlocks (n + 1) with
  | none => rw [hget] at ha; exact absurd ha (by simp)
  | some cr =>
    obtain ⟨c, rest⟩ := cr
    rw [hget] at ha
    dsimp only at ha
    have hfit : n + 1 ≤ blkSize h.mem c := by
      have := (bsGetBlock_eq_some h.mem h.freeBlocks (n + 1) c rest hget).1
      simpa using List.find?_some this
    refine ⟨c, rest, rfl, ?_⟩
    by_cases hsp : n + 3 < blkSize h.mem c
    · rw [if_pos hsp] at ha
      rw [splitAfter_addr, splitAfter_high, splitAfter_mem] at ha
      dsimp only at ha
      simp only [Option.some.injEq, Prod.mk.injEq] at ha
      obtain ⟨ha1, ha2⟩ := ha
      subst ha2
      have hS : blkSize h.mem c < HW := blkSize_lt _ _
      have hc : blkSize
          (updMem (updMem h.mem (c + (n + 1))
              (headerNew (n + 1) ((blkSize h.mem c - (n + 1)) % HW))) c
            (headerNew (blkPredSize h.mem c) (n + 1))) c = n + 1 := by
        unfold blkSize
        rw [updMem_same, blockSize_headerNew, hlt1]
      refine ⟨ha1.symm, by rw [hc], ?_, ?_⟩
      · intro _
        refine ⟨hc, (mem_bsAdd rest (c + (n + 1)) (c + (n + 1))).mpr (Or.inr rfl), ?_⟩
        show blkSize (updMem (updMem h.mem (c + (n + 1))
            (headerNew (n + 1) ((blkSize h.mem c - (n + 1)) % HW))) c
            (headerNew (blkPredSize h.mem c) (n + 1))) (c + (n + 1))
          = blkSize h.mem c - (n + 1)
        unfold blkSize
        rw [updMem_other _ _ _ _ (by omega), updMem_same, blockSize_headerNew]
        unfold blockSize HW
        omega
      · intro hcon
        exact absurd hsp hcon
    · rw [if_neg hsp] at ha
      dsimp only at ha
      simp only [Option.some.injEq, Prod.mk.injEq] at ha
      obtain ⟨ha1, ha2⟩ := ha
      subst ha2
      exact ⟨ha1.symm, hfit, fun hcon => absurd hcon hsp, fun _ => ⟨rfl, rfl⟩⟩

/-- C6, witness for the amended theorem: `alloc(10)` on the fresh 512-word
heap chooses the region block at header 0 and splits it. -/
theorem c6_amended_split_policy_witness :
    ∃ c rest, bsGetBlock heap512.mem heap512.freeBlocks 11 = some (c, rest)
      ∧ 1 = c + 1 ∧ 11 ≤ blkSize c6after.mem c
      ∧ ((13 < blkSize heap512.mem c →
            blkSize c6after.mem c = 11
            ∧ (c + 11) ∈ c6after.freeBlocks
            ∧ blkSize c6after.mem (c + 11) = blkSize heap512.mem c - 11)
        ∧ (¬ (13 < blkSize heap512.mem c) →
            c6after.mem = heap512.mem ∧ c6after.freeBlocks = rest)) :=
  c6_amended_split_policy heap512 10 1 c6after (by decide) rfl

/-- C7, confirmed.  For any heap state with duplicate-free `used_blocks` and
any set `R` of payload addresses marked by the client mark phase (the
claim's hypotheses — coherent mark/unmark/is_marked and callbacks that do
not touch the heap — are captured by keeping the flags beside the heap):
the sweep frees exactly the used blocks whose flag is still clear after the
mark phase, the work list being collected from `used_blocks` before any
`free` runs, and after `gc` every surviving used object is unmarked (P7). -/
theorem c7_gc_sweep_exact (s : MHeap) (R : List Nat) (hnd : s.heap.usedBlocks.Nodup) :
    (s.gc R).heap.usedBlocks
      = s.heap.usedBlocks.filter (fun b => markPhase R s.flags (b + 1))
    ∧ ∀ b ∈ (s.gc R).heap.usedBlocks, (s.gc R).flags (b + 1) = false := by
  refine ⟨gc_used s R hnd, ?_⟩
  intro b hb
  have hm : (b + 1) ∈ (s.gc R).heap.usedBlocks.map (fun b => b + 1) :=
    List.mem_map_of_mem _ hb
  show (if lmem (b + 1) ((s.gc R).heap.usedBlocks.map (fun b => b + 1)) then false
        else markPhase R s.flags (b + 1)) = false
  simp [lmem_eq_decide, hm]

/-- C7, witness at the concrete state `sGC` with root-marked address 1. -/
theorem c7_gc_sweep_exact_witness :
    (sGC.gc [1]).heap.usedBlocks
      = sGC.heap.usedBlocks.filter (fun b => markPhase [1] sGC.flags (b + 1))
    ∧ ∀ b ∈ (sGC.gc [1]).heap.usedBlocks, (sGC.gc [1]).flags (b + 1) = false :=
  c7_gc_sweep_exact sGC [1] (by decide)

/-- C8, confirmed.  For any heap state with duplicate-free `used_blocks`
whose used objects all start unmarked (the clean slate the mark protocol
maintains between collections) and any fixed marked set `R`: running `gc`
twice with the same `R` sweeps nothing on the second run and leaves the
entire managed-heap state exactly as after the first run. -/
theorem c8_gc_idempotent (s : MHeap) (R : List Nat) (hnd : s.heap.usedBlocks.Nodup)
    (hclean : ∀ b ∈ s.heap.usedBlocks, s.flags (b + 1) = false) :
    sweepList R (s.gc R) = [] ∧ (s.gc R).gc R = s.gc R := by
  have hused := gc_used s R hnd
  have hR : ∀ b ∈ (s.gc R).heap.usedBlocks, lmem (b + 1) R = true := by
    intro b hb
    rw [hused] at hb
    rcases List.mem_filter.mp hb with ⟨hbu, hmp⟩
    unfold markPhase at hmp
    cases hcase : lmem (b + 1) R with
    | true => rfl
    | false =>
      rw [hcase, if_neg (by simp)] at hmp
      rw [hclean b hbu] at hmp
      exact absurd hmp (by simp)
  have hsw : sweepList R (s.gc R) = [] := by
    unfold sweepList
    rw [List.map_eq_nil_iff, List.filter_eq_nil_iff]
    intro b hb
    have := hR b hb
    simp [markPhase, this]
  refine ⟨hsw, ?_⟩
  have e1 : (s.gc R).gc R
      = MHeap.mk ((sweepList R (s.gc R)).foldl Heap.free (s.gc R).heap)
          (fun a =>
            if lmem a (((sweepList R (s.gc R)).foldl Heap.free (s.gc R).heap).usedBlocks.map
                (fun b => b + 1)) then false
            else markPhase R (s.gc R).flags a) := rfl
  rw [e1, hsw]
  simp only [List.foldl_nil]
  have e2 : (s.gc R).flags
      = fun a =>
          if lmem a ((s.gc R).heap.usedBlocks.map (fun b => b + 1)) then false
          else markPhase R s.flags a := rfl
  show MHeap.mk (s.gc R).heap _ = MHeap.mk (s.gc R).heap (s.gc R).flags
  refine congrArg (MHeap.mk (s.gc R).heap) (funext fun a => ?_)
  rw [e2]
  by_cases h1 : lmem a ((s.gc R).heap.usedBlocks.map (fun b => b + 1)) = true <;>
    by_cases h2 : lmem a R = true <;>
      simp [markPhase, h1, h2]

/-- C8, witness at the concrete state `sGC` with root-marked address 1. -/
theorem c8_gc_idempotent_witness :
    sweepList [1] (sGC.gc [1]) = [] ∧ (sGC.gc [1]).gc [1] = sGC.gc [1] :=
  c8_gc_idempotent sGC [1] (by decide) (by decide)

/-- C9, confirmed.  Within the accepted size limit, `Heap::new` performs no
divisibility check and computes the word count by truncating integer
division of the byte size. -/
theorem c9_truncating_div (s : Nat) (hs : s ≤ HALF_WORD_MAX) :
    ∃ h, heapNew s = some h ∧ h.size = s / WORD_SIZE := by
  rw [heapNew, if_neg (by omega)]
  exact ⟨_, rfl, rfl⟩

/-- C9, witness: `new(100)` on a 64-bit host yields a 12-word heap. -/
theorem c9_truncating_div_witness :
    100 ≤ HALF_WORD_MAX ∧ 100 / WORD_SIZE = 12
    ∧ ∃ h, heapNew 100 = some h ∧ h.size = 100 / WORD_SIZE :=
  ⟨by decide, by decide, c9_truncating_div 100 (by decide)⟩

/-- C10, confirmed.  `total = payload_size + 1` wraps in 32-bit arithmetic:
under wrap-around semantics `alloc(HALF_WORD_MAX)` searches for a block of
size at least 0, so it returns an address whenever any free block exists
instead of reporting out of memory; on the fresh 512-word heap the
returned block even has own size 0, far below the requested payload. -/
theorem c10_alloc_overflow :
    (∀ h : Heap, h.freeBlocks ≠ [] → (h.alloc HALF_WORD_MAX).isSome)
    ∧ ((heapD 4096).alloc HALF_WORD_MAX).map Prod.fst = some 1
    ∧ blkSize c10after.mem 0 = 0
    ∧ blkSize c10after.mem 0 < HALF_WORD_MAX := by
  refine ⟨?_, by decide, by decide, by decide⟩
  intro h hne
  have htot : (HALF_WORD_MAX + 1) % HW = 0 := by unfold HALF_WORD_MAX HW; omega
  rw [Heap.alloc, Heap.allocBlock]
  simp only [htot]
  cases hfb : h.freeBlocks with
  | nil => exact absurd hfb hne
  | cons x xs =>
    have hfind : List.find? (fun b => decide (0 ≤ blkSize h.mem b)) (x :: xs) = some x := by
      rw [List.find?_cons]
      simp
    have hget : bsGetBlock h.mem (x :: xs) 0 = some (x, (x :: xs).erase x) := by
      rw [bsGetBlock, hfind]
    rw [hget]
    by_cases hsp : (0 + 2) % HW < blkSize h.mem x <;> simp [hsp]

/-- C10, witness: the fresh 512-word heap has a free block, so
`alloc(HALF_WORD_MAX)` returns an address there. -/
theorem c10_alloc_overflow_witness :
    (heapD 4096).freeBlocks ≠ [] ∧ ((heapD 4096).alloc HALF_WORD_MAX).isSome :=
  ⟨by decide, c10_alloc_overflow.1 (heapD 4096) (by decide)⟩

end ManagedHeap
